import Mathlib

/-!
Verification of the bio2zarr vcf2zarr command layer and the staged
conversion pipeline it drives.

The command layer (src/bio2zarr/cli.py) is embedded directly: filesystem
actions and calls into the underlying `vcf` module become an explicit
effect trace, and each click command becomes a function from its parsed
arguments and an environment (whether the destination exists, how the
user answers the confirmation prompt, the process id) to a `CmdResult`.

The underlying `vcf` / `vcf_utils` operations (explode, encode, convert,
explode_partition, partition_into_regions) are not part of the source
tree here; where a claim depends on them they are modelled from the
specification, as marked in the corresponding doc comments.
-/

namespace Bio2zarr

/-- A filesystem path, as its list of components (pathlib semantics). -/
abbrev Path := List String

/-- The suffix appended by check_overwrite_dir when renaming a directory
before deleting it: `.<pid>.DELETING` appended to the last component. -/
def deleteSuffix (pid : Nat) : String :=
  "." ++ toString pid ++ ".DELETING"

/-- The temporary rename target used by check_overwrite_dir:
`path.with_suffix` with the new suffix extending the old one appends
`.<pid>.DELETING` to the final component of the path. -/
def tmpDeletePath (p : Path) (pid : Nat) : Path :=
  p.dropLast ++ [p.getLastD "" ++ deleteSuffix pid]

/-- A call into the underlying conversion operations of the `vcf` module. -/
inductive OpCall where
  | explodeOp (vcfs : List Path) (icfPath : Path)
      (workerProcesses columnChunkSize : Nat)
  | explodeInitOp (icfPath : Path) (vcfs : List Path)
      (targetNumPartitions : Int) (columnChunkSize workerProcesses : Nat)
  | encodeOp (icfPath zarrPath : Path) (schema : Option Path)
      (variantsChunkSize samplesChunkSize maxVariantChunks maxMemory : Option Nat)
      (workerProcesses : Nat)
  | convertOp (vcfs : List Path) (zarrPath : Path)
      (variantsChunkSize samplesChunkSize : Option Nat) (workerProcesses : Nat)
  | explodePartitionOp (icfPath : Path) (partition : Nat)
  deriving DecidableEq

/-- One observable action performed by a command: prompting the user,
renaming or recursively deleting a directory, or invoking an underlying
conversion operation. -/
inductive Effect where
  | prompt (path : Path)
  | rename (src dst : Path)
  | rmtree (p : Path)
  | invoke (op : OpCall)
  deriving DecidableEq

/-- The outcome of running a command: its effect trace, and whether it
aborted (click.Abort from a declined confirmation, or argument
validation failure) before invoking the underlying operation. -/
structure CmdResult where
  effects : List Effect
  aborted : Bool
  deriving DecidableEq

/-- The ambient environment a command runs in. -/
structure Env where
  destExists : Bool
  userConfirms : Bool
  pid : Nat
  deriving DecidableEq

/-- Embedding of check_overwrite_dir (cli.py lines 99 to 113): when the
destination exists, prompt unless force is set (a declined prompt
aborts), then rename the tree to the temporary deletion name and delete
the renamed tree. When the destination does not exist, do nothing. -/
def check_overwrite_dir (path : Path) (force : Bool) (env : Env) : CmdResult :=
  if env.destExists then
    if force then
      ⟨[Effect.rename path (tmpDeletePath path env.pid),
        Effect.rmtree (tmpDeletePath path env.pid)], false⟩
    else if env.userConfirms then
      ⟨[Effect.prompt path,
        Effect.rename path (tmpDeletePath path env.pid),
        Effect.rmtree (tmpDeletePath path env.pid)], false⟩
    else
      ⟨[Effect.prompt path], true⟩
  else
    ⟨[], false⟩

/-- Sequencing of a command body after a possibly aborting prelude. -/
def andThen (r : CmdResult) (more : List Effect) : CmdResult :=
  if r.aborted then r else ⟨r.effects ++ more, false⟩

/-- Embedding of the explode command (cli.py lines 116 to 135): check
the overwrite guard, then invoke vcf.explode; the column-chunk-size
option defaults to 64 (MiB). -/
def explodeCmd (vcfs : List Path) (icfPath : Path) (force : Bool)
    (workerProcesses : Nat) (columnChunkSizeOpt : Option Nat) (env : Env) :
    CmdResult :=
  andThen (check_overwrite_dir icfPath force env)
    [Effect.invoke
      (OpCall.explodeOp vcfs icfPath workerProcesses (columnChunkSizeOpt.getD 64))]

/-- Embedding of the NUM_PARTITIONS argument validation of dexplode_init
(cli.py line 141): click.IntRange with minimum 1 rejects smaller values
during argument parsing, before the command body runs. -/
def intRangeMin1 (v : Int) : Option Int :=
  if v < 1 then none else some v

/-- Embedding of the dexplode_init command (cli.py lines 138 to 163):
argument parsing validates NUM_PARTITIONS at least 1; then the overwrite
guard runs, then vcf.explode_init is invoked; the column-chunk-size
option defaults to 64 (MiB). -/
def dexplodeInitCmd (vcfs : List Path) (icfPath : Path) (numPartitions : Int)
    (force : Bool) (columnChunkSizeOpt : Option Nat) (workerProcesses : Nat)
    (env : Env) : CmdResult :=
  match intRangeMin1 numPartitions with
  | none => ⟨[], true⟩
  | some np =>
      andThen (check_overwrite_dir icfPath force env)
        [Effect.invoke
          (OpCall.explodeInitOp icfPath vcfs np (columnChunkSizeOpt.getD 64)
            workerProcesses)]

/-- Embedding of the encode command (cli.py lines 213 to 267): check the
overwrite guard on the zarr destination, then invoke vcf.encode. -/
def encodeCmd (icfPath zarrPath : Path) (force : Bool) (schema : Option Path)
    (variantsChunkSize samplesChunkSize maxVariantChunks maxMemory : Option Nat)
    (workerProcesses : Nat) (env : Env) : CmdResult :=
  andThen (check_overwrite_dir zarrPath force env)
    [Effect.invoke
      (OpCall.encodeOp icfPath zarrPath schema variantsChunkSize
        samplesChunkSize maxVariantChunks maxMemory workerProcesses)]

/-- Embedding of the convert command for VCFs (cli.py lines 270 to 291):
it has no force option and performs no overwrite check; it invokes
vcf.convert directly whatever the environment holds. -/
def convertCmd (vcfs : List Path) (zarrPath : Path)
    (variantsChunkSize samplesChunkSize : Option Nat) (workerProcesses : Nat)
    (_env : Env) : CmdResult :=
  ⟨[Effect.invoke
      (OpCall.convertOp vcfs zarrPath variantsChunkSize samplesChunkSize
        workerProcesses)], false⟩

/-! Filesystem semantics for the rename-then-delete pattern.  A
filesystem is the finite list of paths of its entries; a rename of a
directory relocates the whole subtree; a recursive delete removes
entries of the renamed subtree one at a time, so every intermediate
state of the deletion is a sublist of the renamed filesystem. -/

/-- Whether path p is the directory dest itself or lies inside it:
dest is a componentwise leading part of p. -/
def underDir : Path → Path → Bool
  | [], _ => true
  | _ :: _, [] => false
  | d :: ds, q :: qs => d == q && underDir ds qs

/-- Relocation of a single entry by a directory rename. -/
def renameEntry (src dst p : Path) : Path :=
  if underDir src p then dst ++ p.drop src.length else p

/-- The filesystem after `os.rename(src, dst)` on a directory. -/
def renameTree (src dst : Path) (fs : List Path) : List Path :=
  fs.map (renameEntry src dst)

theorem underDir_append_left (b d q : Path) :
    underDir (b ++ d) (b ++ q) = underDir d q := by
  induction b with
  | nil => rfl
  | cons x xs ih => simp [underDir, ih]

theorem underDir_refl_append (d t : Path) : underDir d (d ++ t) = true := by
  induction d with
  | nil => rfl
  | cons x xs ih => simp [underDir, ih]

theorem eq_append_drop_of_underDir :
    ∀ (d p : Path), underDir d p = true → p = d ++ p.drop d.length
  | [], p, _ => rfl
  | _ :: _, [], h => by simp [underDir] at h
  | d :: ds, q :: qs, h => by
    simp only [underDir, Bool.and_eq_true, beq_iff_eq] at h
    obtain ⟨rfl, h2⟩ := h
    simpa using eq_append_drop_of_underDir ds qs h2

theorem string_ne_append_of_length_pos (s t : String) (ht : 0 < t.length) :
    s ≠ s ++ t := by
  intro h
  have hl : s.length = s.length + t.length := by
    conv_lhs => rw [h]
    exact String.length_append s t
  have hl0 : t.length = 0 := by simpa using hl.symm
  rw [hl0] at ht
  exact Nat.lt_irrefl 0 ht

theorem deleteSuffix_length_pos (pid : Nat) : 0 < (deleteSuffix pid).length := by
  have h1 : deleteSuffix pid = ("." ++ toString pid) ++ ".DELETING" := by
    simp [deleteSuffix, String.append_assoc]
  have h2 : (("." ++ toString pid) ++ ".DELETING").length
      = ("." ++ toString pid).length + ".DELETING".length :=
    String.length_append _ _
  rw [h1, h2]
  exact Nat.add_pos_right _ (by decide)

theorem suffixed_name_ne (nm : String) (pid : Nat) :
    nm ++ deleteSuffix pid ≠ nm :=
  fun h => string_ne_append_of_length_pos nm (deleteSuffix pid)
    (deleteSuffix_length_pos pid) h.symm

theorem tmpDeletePath_concat (b : Path) (nm : String) (pid : Nat) :
    tmpDeletePath (b ++ [nm]) pid = b ++ [nm ++ deleteSuffix pid] := by
  simp [tmpDeletePath]

theorem tmpDeletePath_ne (p : Path) (pid : Nat) (hne : p ≠ []) :
    tmpDeletePath p pid ≠ p := by
  rcases List.eq_nil_or_concat p with rfl | ⟨b, nm, rfl⟩
  · exact absurd rfl hne
  · rw [List.concat_eq_append, tmpDeletePath_concat]
    intro h
    have hl : nm ++ deleteSuffix pid = nm := by
      have := List.append_inj_right h rfl
      simpa using this
    exact suffixed_name_ne nm pid hl

theorem underDir_concat_ne (b : Path) (nm nm' : String) (h : nm' ≠ nm)
    (rest : Path) :
    underDir (b ++ [nm]) ((b ++ [nm']) ++ rest) = false := by
  rw [List.append_assoc, underDir_append_left]
  simp [underDir, Ne.symm h]

/-- After renaming dest to its temporary deletion name, no entry of the
resulting filesystem is under the original destination. -/
theorem renameTree_not_underDir (dest : Path) (pid : Nat) (hne : dest ≠ [])
    (fs : List Path) :
    ∀ p ∈ renameTree dest (tmpDeletePath dest pid) fs, underDir dest p = false := by
  intro p hp
  simp only [renameTree, List.mem_map] at hp
  obtain ⟨q, _, rfl⟩ := hp
  rw [renameEntry]
  split
  · rcases List.eq_nil_or_concat dest with rfl | ⟨b, nm, hd⟩
    · exact absurd rfl hne
    · rw [hd, List.concat_eq_append, tmpDeletePath_concat]
      exact underDir_concat_ne b nm (nm ++ deleteSuffix pid)
        (suffixed_name_ne nm pid) (q.drop (b ++ [nm]).length)
  · rename_i hfalse
    simpa using hfalse

/-- Every intermediate state of the recursive deletion (any sublist of
the renamed filesystem) has no entry under the original destination. -/
theorem deletion_states_not_underDir (dest : Path) (pid : Nat) (hne : dest ≠ [])
    (fs fs' : List Path)
    (hsub : fs'.Sublist (renameTree dest (tmpDeletePath dest pid) fs)) :
    ∀ p ∈ fs', underDir dest p = false := by
  intro p hp
  exact renameTree_not_underDir dest pid hne fs p (hsub.subset hp)

/-- C1: the claim states that every destructive destination-writing
operation (explode, dexplode-init, encode and convert) aborts on an
existing destination unless confirmed or forced.  The code contradicts
it: convert has no force option and never calls check_overwrite_dir, so
with an existing destination and no confirmation it still invokes the
underlying conversion, while explode, dexplode-init and encode all
abort at the declined prompt. -/
theorem claim_C1_convert_lacks_overwrite_guard :
    convertCmd [["a.vcf"]] ["out.zarr"] none none 1 ⟨true, false, 7⟩
      = ⟨[Effect.invoke (OpCall.convertOp [["a.vcf"]] ["out.zarr"] none none 1)],
         false⟩
    ∧ explodeCmd [["a.vcf"]] ["out.icf"] false 1 none ⟨true, false, 7⟩
      = ⟨[Effect.prompt ["out.icf"]], true⟩
    ∧ dexplodeInitCmd [["a.vcf"]] ["out.icf"] 4 false none 1 ⟨true, false, 7⟩
      = ⟨[Effect.prompt ["out.icf"]], true⟩
    ∧ encodeCmd ["out.icf"] ["out.zarr"] false none none none none none 1
        ⟨true, false, 7⟩
      = ⟨[Effect.prompt ["out.zarr"]], true⟩ := by
  decide

/-- C2: when an existing destination is overwritten, check_overwrite_dir
first renames the old directory in one step to a distinct temporary name
carrying a .DELETING marker, and only then recursively deletes the
renamed tree, so no intermediate state of the deletion has any entry
under the original destination path. -/
theorem claim_C2_rename_then_delete (path : Path) (force : Bool) (env : Env)
    (hne : path ≠ []) (hex : env.destExists = true)
    (hgo : force = true ∨ env.userConfirms = true) :
    (check_overwrite_dir path force env).effects
      = (if force then [] else [Effect.prompt path])
        ++ [Effect.rename path (tmpDeletePath path env.pid),
            Effect.rmtree (tmpDeletePath path env.pid)]
    ∧ (check_overwrite_dir path force env).aborted = false
    ∧ tmpDeletePath path env.pid ≠ path
    ∧ (∃ b s, tmpDeletePath path env.pid = b ++ [s ++ ".DELETING"])
    ∧ ∀ fs fs' : List Path,
        fs'.Sublist (renameTree path (tmpDeletePath path env.pid) fs) →
        ∀ p ∈ fs', underDir path p = false := by
  refine ⟨?_, ?_, tmpDeletePath_ne path env.pid hne, ?_, ?_⟩
  · rcases hgo with hf | hu
    · subst hf; simp [check_overwrite_dir, hex]
    · cases force with
      | true => simp [check_overwrite_dir, hex]
      | false => simp [check_overwrite_dir, hex, hu]
  · rcases hgo with hf | hu
    · subst hf; simp [check_overwrite_dir, hex]
    · cases force with
      | true => simp [check_overwrite_dir, hex]
      | false => simp [check_overwrite_dir, hex, hu]
  · refine ⟨path.dropLast, path.getLastD "" ++ ("." ++ toString env.pid), ?_⟩
    simp [tmpDeletePath, deleteSuffix, String.append_assoc]
  · intro fs fs' hsub
    exact deletion_states_not_underDir path env.pid hne fs fs' hsub

/-- Witness for C2 at a concrete destination, forced overwrite absent
but confirmation given. -/
theorem claim_C2_rename_then_delete_witness :
    ((["data", "out.zarr"] : Path) ≠ []
      ∧ (⟨true, true, 42⟩ : Env).destExists = true
      ∧ (false = true ∨ (⟨true, true, 42⟩ : Env).userConfirms = true))
    ∧ ((check_overwrite_dir ["data", "out.zarr"] false ⟨true, true, 42⟩).effects
        = (if false then [] else [Effect.prompt ["data", "out.zarr"]])
          ++ [Effect.rename ["data", "out.zarr"]
                (tmpDeletePath ["data", "out.zarr"] 42),
              Effect.rmtree (tmpDeletePath ["data", "out.zarr"] 42)]
      ∧ (check_overwrite_dir ["data", "out.zarr"] false ⟨true, true, 42⟩).aborted
          = false
      ∧ tmpDeletePath ["data", "out.zarr"] 42 ≠ ["data", "out.zarr"]
      ∧ (∃ b s, tmpDeletePath ["data", "out.zarr"] 42 = b ++ [s ++ ".DELETING"])
      ∧ ∀ fs fs' : List Path,
          fs'.Sublist
            (renameTree ["data", "out.zarr"]
              (tmpDeletePath ["data", "out.zarr"] 42) fs) →
          ∀ p ∈ fs', underDir ["data", "out.zarr"] p = false) :=
  ⟨⟨by decide, rfl, Or.inr rfl⟩,
   claim_C2_rename_then_delete ["data", "out.zarr"] false ⟨true, true, 42⟩
     (by decide) rfl (Or.inr rfl)⟩

/-- C9: when the destination does not exist, the pre-overwrite check
performs no effect at all (no prompt, no rename, no deletion, no
directory creation), and the commands proceed directly to the single
invocation of the underlying operation. -/
theorem claim_C9_check_is_noop_when_dest_missing (path : Path) (force uc : Bool)
    (pid : Nat) (vcfs : List Path) (wp : Nat) (ccs : Option Nat)
    (icfPath : Path) (schema : Option Path) (vchunk schunk mvc mm : Option Nat) :
    check_overwrite_dir path force ⟨false, uc, pid⟩ = ⟨[], false⟩
    ∧ explodeCmd vcfs path force wp ccs ⟨false, uc, pid⟩
        = ⟨[Effect.invoke (OpCall.explodeOp vcfs path wp (ccs.getD 64))], false⟩
    ∧ encodeCmd icfPath path force schema vchunk schunk mvc mm wp ⟨false, uc, pid⟩
        = ⟨[Effect.invoke
              (OpCall.encodeOp icfPath path schema vchunk schunk mvc mm wp)],
           false⟩ := by
  refine ⟨rfl, ?_, ?_⟩ <;>
    simp [explodeCmd, encodeCmd, check_overwrite_dir, andThen]

/-- C10: with the column-chunk-size option not given, explode and
dexplode-init resolve it to the default of 64 MiB and pass exactly that
value through to the underlying explode and explode_init operations. -/
theorem claim_C10_default_column_chunk_size (vcfs : List Path) (icfPath : Path)
    (force uc : Bool) (wp pid k : Nat) :
    explodeCmd vcfs icfPath force wp none ⟨false, uc, pid⟩
      = ⟨[Effect.invoke (OpCall.explodeOp vcfs icfPath wp 64)], false⟩
    ∧ dexplodeInitCmd vcfs icfPath ((k : Int) + 1) force none wp ⟨false, uc, pid⟩
      = ⟨[Effect.invoke
            (OpCall.explodeInitOp icfPath vcfs ((k : Int) + 1) 64 wp)],
         false⟩ := by
  have hk : ¬((k : Int) + 1 < 1) := by omega
  constructor
  · simp [explodeCmd, check_overwrite_dir, andThen]
  · simp [dexplodeInitCmd, intRangeMin1, hk, check_overwrite_dir, andThen]

/-! Region partitioner.  The partitioning operation itself
(vcf_utils.IndexedVcf.partition_into_regions) is not part of the source
tree here, only its caller vcf_partition (cli.py lines 397 to 406); it
is modelled from the specification, section 4.1. -/

/-- Error raised for an invalid partition request. -/
inductive PlanningError where
  | invalidNumParts
  deriving DecidableEq

/-- A partition of the record range: the half-open interval of record
indexes from start (inclusive) to stop (exclusive). -/
structure Region where
  start : Nat
  stop : Nat
  deriving DecidableEq

/-- Boundary of the i-th partition when n records are split into k
parts balanced by size. -/
def partitionBoundary (n k i : Nat) : Nat := i * n / k

/-- Modelled from the spec: vcf_utils.IndexedVcf.partition_into_regions
is missing from the source tree; section 4.1 requires ordered, disjoint,
exhaustive partitions, an achieved count possibly below the requested
one, and a PlanningError when num_parts is below 1. -/
def partition_into_regions (recordCount : Nat) (numParts : Int) :
    Except PlanningError (List Region) :=
  if numParts < 1 then Except.error PlanningError.invalidNumParts
  else
    let k := min numParts.toNat recordCount
    Except.ok ((List.range k).map fun i =>
      ⟨partitionBoundary recordCount k i, partitionBoundary recordCount k (i + 1)⟩)

theorem partitionBoundary_mono (n k : Nat) {i j : Nat} (h : i ≤ j) :
    partitionBoundary n k i ≤ partitionBoundary n k j :=
  Nat.div_le_div_right (Nat.mul_le_mul_right n h)

theorem partitionBoundary_zero (n k : Nat) : partitionBoundary n k 0 = 0 := by
  simp [partitionBoundary]

theorem partitionBoundary_self (n k : Nat) (hk : 0 < k) :
    partitionBoundary n k k = n := by
  simp [partitionBoundary, Nat.mul_div_cancel_left n hk]

theorem boundary_unique_interval (n k r : Nat) (hk : 0 < k) (hr : r < n) :
    ∃! i, i < k ∧ partitionBoundary n k i ≤ r
      ∧ r < partitionBoundary n k (i + 1) := by
  have hP0 : partitionBoundary n k 0 ≤ r := by
    rw [partitionBoundary_zero]; exact Nat.zero_le r
  set i0 := Nat.findGreatest (fun j => partitionBoundary n k j ≤ r) k with hi0
  have hle : partitionBoundary n k i0 ≤ r :=
    Nat.findGreatest_spec (P := fun j => partitionBoundary n k j ≤ r)
      (m := 0) (n := k) (Nat.zero_le k) hP0
  have hi0k : i0 ≤ k :=
    Nat.findGreatest_le (P := fun j => partitionBoundary n k j ≤ r) k
  have hi0lt : i0 < k := by
    rcases Nat.lt_or_ge i0 k with h | h
    · exact h
    · exfalso
      have : i0 = k := Nat.le_antisymm hi0k h
      rw [this, partitionBoundary_self n k hk] at hle
      exact Nat.not_lt.mpr hle hr
  have hup : r < partitionBoundary n k (i0 + 1) := by
    have hnot : ¬(partitionBoundary n k (i0 + 1) ≤ r) :=
      Nat.findGreatest_is_greatest (P := fun j => partitionBoundary n k j ≤ r)
        (n := k) (k := i0 + 1) (by rw [← hi0]; exact Nat.lt_succ_self i0) hi0lt
    exact Nat.lt_of_not_le hnot
  refine ⟨i0, ⟨hi0lt, hle, hup⟩, ?_⟩
  rintro j ⟨hjk, hjle, hjup⟩
  rcases Nat.lt_trichotomy j i0 with h | h | h
  · exfalso
    have : partitionBoundary n k (j + 1) ≤ partitionBoundary n k i0 :=
      partitionBoundary_mono n k h
    exact Nat.not_lt.mpr (Nat.le_trans this hle) hjup
  · exact h
  · exfalso
    have : partitionBoundary n k (i0 + 1) ≤ partitionBoundary n k j :=
      partitionBoundary_mono n k h
    exact Nat.not_lt.mpr (Nat.le_trans this hjle) hup

theorem get_range_map {α : Type} (f : Nat → α) (k i : Nat)
    (hi : i < ((List.range k).map f).length) :
    ((List.range k).map f).get ⟨i, hi⟩ = f i := by
  simp [List.get_eq_getElem]

/-- C6: for every indexed input and every num_parts of at least 1, the
returned partitions are ordered (and hence pairwise disjoint) and
exhaustive: each record lies in exactly one returned region. -/
theorem claim_C6_partitions_disjoint_exhaustive (recordCount : Nat)
    (numParts : Int) (h1 : 1 ≤ numParts) :
    ∃ rs, partition_into_regions recordCount numParts = Except.ok rs
    ∧ (∀ i j (hi : i < rs.length) (hj : j < rs.length), i < j →
        (rs.get ⟨i, hi⟩).stop ≤ (rs.get ⟨j, hj⟩).start)
    ∧ (∀ r, r < recordCount →
        ∃! i, ∃ hi : i < rs.length,
          (rs.get ⟨i, hi⟩).start ≤ r ∧ r < (rs.get ⟨i, hi⟩).stop) := by
  have hnp : ¬(numParts < 1) := Int.not_lt.mpr h1
  set k := min numParts.toNat recordCount with hk
  set f : Nat → Region := fun i =>
    ⟨partitionBoundary recordCount k i, partitionBoundary recordCount k (i + 1)⟩
    with hf
  refine ⟨(List.range k).map f, ?_, ?_, ?_⟩
  · simp [partition_into_regions, hnp]
  · intro i j hi hj hij
    rw [get_range_map, get_range_map]
    exact partitionBoundary_mono recordCount k hij
  · intro r hr
    have hk0 : 0 < k := by
      have h1' : 1 ≤ numParts.toNat := by omega
      have h2' : 1 ≤ recordCount := by omega
      rw [hk]
      exact Nat.le_min.mpr ⟨h1', h2'⟩
    have hiff : ∀ i,
        (∃ hi : i < ((List.range k).map f).length,
          (((List.range k).map f).get ⟨i, hi⟩).start ≤ r
          ∧ r < (((List.range k).map f).get ⟨i, hi⟩).stop)
        ↔ (i < k ∧ partitionBoundary recordCount k i ≤ r
            ∧ r < partitionBoundary recordCount k (i + 1)) := by
      intro i
      constructor
      · rintro ⟨hi, hs, ht⟩
        rw [get_range_map] at hs ht
        exact ⟨by simpa using hi, hs, ht⟩
      · rintro ⟨hik, hs, ht⟩
        refine ⟨by simpa using hik, ?_, ?_⟩ <;> rw [get_range_map]
        · exact hs
        · exact ht
    simp only [hiff]
    exact boundary_unique_interval recordCount k r hk0 hr

/-- Witness for C6 with ten records split into three parts. -/
theorem claim_C6_partitions_disjoint_exhaustive_witness :
    (1 : Int) ≤ 3
    ∧ (∃ rs, partition_into_regions 10 3 = Except.ok rs
      ∧ (∀ i j (hi : i < rs.length) (hj : j < rs.length), i < j →
          (rs.get ⟨i, hi⟩).stop ≤ (rs.get ⟨j, hj⟩).start)
      ∧ (∀ r, r < 10 →
          ∃! i, ∃ hi : i < rs.length,
            (rs.get ⟨i, hi⟩).start ≤ r ∧ r < (rs.get ⟨i, hi⟩).stop)) :=
  ⟨by decide, claim_C6_partitions_disjoint_exhaustive 10 3 (by decide)⟩

/-- C7: a requested partition count below 1 fails with PlanningError and
yields no partitions, and the dexplode-init command rejects such a
NUM_PARTITIONS during argument validation, producing no effect at all
before any initialisation. -/
theorem claim_C7_num_parts_below_one_rejected (recordCount : Nat)
    (numParts : Int) (h : numParts < 1) (vcfs : List Path) (icfPath : Path)
    (force : Bool) (ccs : Option Nat) (wp : Nat) (env : Env) :
    partition_into_regions recordCount numParts
      = Except.error PlanningError.invalidNumParts
    ∧ dexplodeInitCmd vcfs icfPath numParts force ccs wp env = ⟨[], true⟩ := by
  constructor
  · simp [partition_into_regions, h]
  · simp [dexplodeInitCmd, intRangeMin1, h]

/-- Witness for C7 at num_parts zero. -/
theorem claim_C7_num_parts_below_one_rejected_witness :
    (0 : Int) < 1
    ∧ (partition_into_regions 10 0
        = Except.error PlanningError.invalidNumParts
      ∧ dexplodeInitCmd [["a.vcf"]] ["out.icf"] 0 false none 1 ⟨false, false, 7⟩
        = ⟨[], true⟩) :=
  ⟨by decide,
   claim_C7_num_parts_below_one_rejected 10 0 (by decide) [["a.vcf"]]
     ["out.icf"] false none 1 ⟨false, false, 7⟩⟩

/-! Chunked encoder.  vcf.encode, vcf.explode and vcf.convert are not
part of the source tree here, only their callers in cli.py; they are
modelled from the specification, sections 4.2, 4.5 and 4.6. -/

/-- A field value of a variant record. -/
abbrev Value := Int

/-- A contiguous run of values, the unit written or read at once. -/
abbrev Chunk := List Value

/-- Ceiling division: the number of size-s chunks covering n items. -/
def ceilDiv (n s : Nat) : Nat := (n + s - 1) / s

/-- The i-th size-s chunk of a column. -/
def chunkAt (s : Nat) (col : List Value) (i : Nat) : Chunk :=
  (col.drop (i * s)).take s

/-- A column split into its size-s chunks. -/
def chunkColumn (s : Nat) (col : List Value) : List Chunk :=
  (List.range (ceilDiv col.length s)).map (chunkAt s col)

/-- One field of an ICF store: its name and its column chunks as
staged on disk; the logical column is their concatenation. -/
structure IcfField where
  name : String
  chunks : List Chunk
  deriving DecidableEq

/-- The logical column of a field, concatenated across the staged
column chunks (the encoder realigns across ICF chunk boundaries). -/
def IcfField.column (f : IcfField) : List Value := f.chunks.flatten

/-- A sealed ICF store: total record count plus one field per column. -/
structure IcfStore where
  recordCount : Nat
  fields : List IcfField
  deriving DecidableEq

/-- Store invariant: field names are distinct and every column covers
exactly the full record count. -/
def IcfStore.wellFormed (icf : IcfStore) : Prop :=
  (icf.fields.map IcfField.name).Nodup
  ∧ ∀ f ∈ icf.fields, f.column.length = icf.recordCount

instance (icf : IcfStore) : Decidable icf.wellFormed := by
  unfold IcfStore.wellFormed; infer_instance

/-- One encode task and simultaneously one written array chunk: a field
name, a variant-dimension chunk index, and the chunk data. -/
structure Write where
  fieldName : String
  chunkIndex : Nat
  data : Chunk
  deriving DecidableEq

/-- The uncompressed buffer size a task holds resident. -/
def Write.memSize (w : Write) : Nat := w.data.length

/-- Number of variant-dimension chunks to emit: all of them, or the
first max_variant_chunks of them when that diagnostic limit is given. -/
def truncCount (mvc : Option Nat) (total : Nat) : Nat :=
  match mvc with
  | none => total
  | some k => min k total

/-- The ordered field-by-chunk encode tasks for one field. -/
def fieldWrites (vcs : Nat) (mvc : Option Nat) (f : IcfField) : List Write :=
  (List.range (truncCount mvc (ceilDiv f.column.length vcs))).map
    fun i => ⟨f.name, i, chunkAt vcs f.column i⟩

/-- All encode tasks of a store, fields in order, chunks in order. -/
def encodeTasks (icf : IcfStore) (vcs : Nat) (mvc : Option Nat) : List Write :=
  (icf.fields.map (fieldWrites vcs mvc)).flatten

/-- Greedy split of the pending tasks into one batch respecting the
memory budget and the remainder.  The first pending task is always
taken: a single chunk larger than the budget cannot be split, the
budget only limits concurrency. -/
def batchSplit (budget used : Nat) : List Write → List Write × List Write
  | [] => ([], [])
  | w :: ws =>
    if used = 0 ∨ used + w.memSize ≤ budget then
      let p := batchSplit budget (used + w.memSize) ws
      (w :: p.1, p.2)
    else ([], w :: ws)

theorem batchSplit_append (budget : Nat) :
    ∀ (ts : List Write) (used : Nat),
      (batchSplit budget used ts).1 ++ (batchSplit budget used ts).2 = ts := by
  intro ts
  induction ts with
  | nil => intro used; rfl
  | cons w ws ih =>
    intro used
    rw [batchSplit]
    split
    · simpa using ih (used + w.memSize)
    · rfl

theorem batchSplit_snd_length_le (budget : Nat) :
    ∀ (ts : List Write) (used : Nat),
      (batchSplit budget used ts).2.length ≤ ts.length := by
  intro ts
  induction ts with
  | nil => intro used; exact Nat.le_refl 0
  | cons w ws ih =>
    intro used
    rw [batchSplit]
    split
    · exact Nat.le_trans (ih (used + w.memSize)) (Nat.le_succ ws.length)
    · exact Nat.le_refl _

/-- The memory-budget scheduler: batches of concurrently resident
tasks, taken greedily in task order. -/
def scheduleBatches (budget : Nat) (ts : List Write) : List (List Write) :=
  match ts with
  | [] => []
  | w :: ws =>
    let p := batchSplit budget (w.memSize) ws
    (w :: p.1) :: scheduleBatches budget p.2
termination_by ts.length
decreasing_by
  exact Nat.lt_succ_of_le (batchSplit_snd_length_le budget ws w.memSize)

theorem scheduleBatches_join_aux (budget : Nat) :
    ∀ (n : Nat) (ts : List Write), ts.length ≤ n →
      (scheduleBatches budget ts).flatten = ts := by
  intro n
  induction n with
  | zero =>
    intro ts h
    have h0 : ts = [] := List.length_eq_zero.mp (Nat.le_zero.mp h)
    subst h0
    rw [scheduleBatches]; rfl
  | succ n ih =>
    intro ts h
    match ts with
    | [] => rw [scheduleBatches]; rfl
    | w :: ws =>
      rw [scheduleBatches]
      simp only [List.flatten_cons]
      have hsplit := batchSplit_append budget ws w.memSize
      have hlen : (batchSplit budget w.memSize ws).2.length ≤ n := by
        have := batchSplit_snd_length_le budget ws w.memSize
        simp only [List.length_cons] at h
        omega
      rw [ih _ hlen]
      rw [List.cons_append, hsplit]

theorem scheduleBatches_join (budget : Nat) (ts : List Write) :
    (scheduleBatches budget ts).flatten = ts :=
  scheduleBatches_join_aux budget ts.length ts (Nat.le_refl _)

/-- Execution of the scheduled batches: each batch applies its writes
in order; batches run one after another.  The array store is addressed
by field and chunk index, so the final store is the written sequence. -/
def runBatches (batches : List (List Write)) : List Write :=
  batches.foldl (fun acc b => acc ++ b) []

theorem foldl_append_eq (batches : List (List Write)) :
    ∀ acc : List Write,
      batches.foldl (fun a b => a ++ b) acc = acc ++ batches.flatten := by
  induction batches with
  | nil => intro acc; simp
  | cons b bs ih => intro acc; simp [List.foldl_cons, ih, List.append_assoc]

theorem runBatches_eq_join (batches : List (List Write)) :
    runBatches batches = batches.flatten := by
  rw [runBatches, foldl_append_eq]; rfl

/-- Modelled from the spec: vcf.encode is missing from the source tree;
section 4.5 describes reading the ICF column chunks, reshaping to the
target variant-dimension chunk geometry (optionally truncated to the
first max_variant_chunks chunks), and writing field-by-chunk units under
a worker pool throttled by the max_memory budget (no budget means no
throttling). -/
def encode (icf : IcfStore) (vcs : Nat) (mvc : Option Nat)
    (maxMemory : Option Nat) : List Write :=
  match maxMemory with
  | none => runBatches [encodeTasks icf vcs mvc]
  | some m => runBatches (scheduleBatches m (encodeTasks icf vcs mvc))

theorem encode_eq_tasks (icf : IcfStore) (vcs : Nat) (mvc : Option Nat)
    (maxMemory : Option Nat) :
    encode icf vcs mvc maxMemory = encodeTasks icf vcs mvc := by
  cases maxMemory with
  | none => rw [encode, runBatches_eq_join]; simp
  | some m => rw [encode, runBatches_eq_join, scheduleBatches_join]

/-- C3: the encode output is identical for every pair of max_memory
values (including unset); the memory budget only changes the batching
of concurrently resident field-by-chunk tasks, never the content. -/
theorem claim_C3_encode_independent_of_max_memory (icf : IcfStore) (vcs : Nat)
    (mvc : Option Nat) (m1 m2 : Option Nat) :
    encode icf vcs mvc m1 = encode icf vcs mvc m2 := by
  rw [encode_eq_tasks, encode_eq_tasks]

/-- The chunks written for one field of the array store, in chunk
order (array addressing is by field and chunk index). -/
def writesFor (nm : String) : List Write → List Write
  | [] => []
  | w :: ws =>
      if w.fieldName == nm then w :: writesFor nm ws else writesFor nm ws

theorem writesFor_append (nm : String) (a b : List Write) :
    writesFor nm (a ++ b) = writesFor nm a ++ writesFor nm b := by
  induction a with
  | nil => rfl
  | cons w ws ih =>
    rw [List.cons_append, writesFor, writesFor]
    split <;> simp [ih]

theorem writesFor_tagged (nm nm' : String) (g : Nat → Write)
    (hg : ∀ i, (g i).fieldName = nm') :
    ∀ l : List Nat,
      writesFor nm (l.map g) = if nm' == nm then l.map g else [] := by
  intro l
  induction l with
  | nil => cases h : (nm' == nm) <;> simp [writesFor]
  | cons i is ih =>
    rw [List.map_cons, writesFor, hg i, ih]
    cases h : (nm' == nm) <;> simp [h]

theorem writesFor_fieldWrites (nm : String) (vcs : Nat) (mvc : Option Nat)
    (f : IcfField) :
    writesFor nm (fieldWrites vcs mvc f)
      = if f.name == nm then fieldWrites vcs mvc f else [] := by
  rw [fieldWrites]
  exact writesFor_tagged nm f.name _ (fun i => rfl) _

theorem writesFor_flatten_of_notin (vcs : Nat) (mvc : Option Nat) (nm : String) :
    ∀ gs : List IcfField, (∀ g ∈ gs, g.name ≠ nm) →
      writesFor nm ((gs.map (fieldWrites vcs mvc)).flatten) = [] := by
  intro gs
  induction gs with
  | nil => intro _; rfl
  | cons g gs ih =>
    intro hne
    simp only [List.map_cons, List.flatten_cons]
    rw [writesFor_append, writesFor_fieldWrites]
    have h1 : (g.name == nm) = false :=
      beq_eq_false_iff_ne.mpr (hne g (List.mem_cons_self g gs))
    rw [h1]
    simp only [Bool.false_eq_true, if_false, List.nil_append]
    exact ih fun g' hg' => hne g' (List.mem_cons_of_mem g hg')

theorem writesFor_encodeTasks (vcs : Nat) (mvc : Option Nat) (f : IcfField) :
    ∀ fs : List IcfField, f ∈ fs → (fs.map IcfField.name).Nodup →
      writesFor f.name ((fs.map (fieldWrites vcs mvc)).flatten)
        = fieldWrites vcs mvc f := by
  intro fs
  induction fs with
  | nil => intro h; cases h
  | cons g gs ih =>
    intro hmem hnd
    simp only [List.map_cons, List.flatten_cons] at hnd ⊢
    rw [writesFor_append, writesFor_fieldWrites]
    rw [List.nodup_cons] at hnd
    rcases List.mem_cons.mp hmem with rfl | hmem'
    · rw [beq_self_eq_true]
      simp only [if_true]
      have hrest : writesFor f.name ((gs.map (fieldWrites vcs mvc)).flatten) = [] := by
        apply writesFor_flatten_of_notin
        intro g' hg' heq
        exact hnd.1 (heq ▸ List.mem_map_of_mem IcfField.name hg')
      rw [hrest, List.append_nil]
    · have hgne : (g.name == f.name) = false := by
        apply beq_eq_false_iff_ne.mpr
        intro heq
        exact hnd.1 (heq ▸ List.mem_map_of_mem IcfField.name hmem')
      rw [hgne]
      simp only [Bool.false_eq_true, if_false, List.nil_append]
      exact ih hmem' hnd.2

/-- C4: with max_variant_chunks set to k, not exceeding the full chunk
count, encode emits for every field exactly k variant-dimension chunks,
and they are the first-k prefix of the chunks a full encode emits with
the same chunk-size parameters (under any memory budgets). -/
theorem claim_C4_max_variant_chunks_truncates (icf : IcfStore) (vcs k : Nat)
    (mm mm' : Option Nat) (hwf : icf.wellFormed)
    (hk : k ≤ ceilDiv icf.recordCount vcs) :
    ∀ f ∈ icf.fields,
      writesFor f.name (encode icf vcs (some k) mm)
        = (writesFor f.name (encode icf vcs none mm')).take k
      ∧ (writesFor f.name (encode icf vcs (some k) mm)).length = k := by
  intro f hf
  rw [encode_eq_tasks, encode_eq_tasks, encodeTasks, encodeTasks,
      writesFor_encodeTasks vcs (some k) f icf.fields hf hwf.1,
      writesFor_encodeTasks vcs none f icf.fields hf hwf.1]
  have hN : ceilDiv f.column.length vcs = ceilDiv icf.recordCount vcs := by
    rw [hwf.2 f hf]
  have hkN : k ≤ ceilDiv f.column.length vcs := by rw [hN]; exact hk
  constructor
  · rw [fieldWrites, fieldWrites, truncCount, truncCount,
        ← List.map_take, List.take_range]
  · rw [fieldWrites, truncCount]
    simp only [List.length_map, List.length_range]
    exact Nat.min_eq_left hkN

/-- Witness for C4: one field of four records, chunk size two, truncated
to the first chunk. -/
theorem claim_C4_max_variant_chunks_truncates_witness :
    ((⟨4, [⟨"pos", [[1, 2], [3, 4]]⟩]⟩ : IcfStore).wellFormed
      ∧ 1 ≤ ceilDiv (4 : Nat) 2)
    ∧ ∀ f ∈ (⟨4, [⟨"pos", [[1, 2], [3, 4]]⟩]⟩ : IcfStore).fields,
        writesFor f.name
            (encode ⟨4, [⟨"pos", [[1, 2], [3, 4]]⟩]⟩ 2 (some 1) (some 3))
          = (writesFor f.name
              (encode ⟨4, [⟨"pos", [[1, 2], [3, 4]]⟩]⟩ 2 none none)).take 1
        ∧ (writesFor f.name
            (encode ⟨4, [⟨"pos", [[1, 2], [3, 4]]⟩]⟩ 2 (some 1) (some 3))).length
          = 1 :=
  ⟨⟨by decide, by decide⟩,
   claim_C4_max_variant_chunks_truncates ⟨4, [⟨"pos", [[1, 2], [3, 4]]⟩]⟩ 2 1
     (some 3) none (by decide) (by decide)⟩

/-! Exploder and direct converter, modelled from the specification
(sections 4.2 and 4.6). -/

/-- The parsed content of one input file: its field names and its
row-oriented records. -/
structure SourceData where
  fieldNames : List String
  records : List (List Value)
  deriving DecidableEq

/-- The column of values of field idx across a record list. -/
def columnOf (records : List (List Value)) (idx : Nat) : List Value :=
  records.map fun r => r.getD idx 0

/-- The field names shared by the input files (taken from the first). -/
def sourceNames (sources : List SourceData) : List String :=
  (sources.head?.map SourceData.fieldNames).getD []

/-- All records of the input files, concatenated in file order. -/
def sourceRecords (sources : List SourceData) : List (List Value) :=
  (sources.map SourceData.records).flatten

/-- Modelled from the spec: vcf.explode is missing from the source
tree; section 4.2 describes converting the row-oriented records into
one column per field, flushed as column chunks bounded by
column_chunk_size. -/
def explode (sources : List SourceData) (columnChunkSize : Nat) : IcfStore :=
  ⟨(sourceRecords sources).length,
   (List.range (sourceNames sources).length).map fun i =>
     ⟨(sourceNames sources).getD i "",
      chunkColumn columnChunkSize (columnOf (sourceRecords sources) i)⟩⟩

/-- Modelled from the spec: vcf.convert is missing from the source
tree; section 4.6 describes it as explode into a temporary ICF store
(with the default column chunk size of 64 MiB), encode into the
destination, then discard the temporary store. -/
def convert (sources : List SourceData) (vcs : Nat) : List Write :=
  encode (explode sources 64) vcs none none

theorem le_ceilDiv_mul (n s : Nat) (hs : 1 ≤ s) : n ≤ ceilDiv n s * s := by
  rw [ceilDiv]
  by_contra hcon
  push_neg at hcon
  have hq : (n + s - 1) / s + 1 ≤ (n + s - 1) / s := by
    apply (Nat.le_div_iff_mul_le hs).2
    have hm : ((n + s - 1) / s + 1) * s = (n + s - 1) / s * s + s :=
      Nat.succ_mul _ s
    omega
  omega

theorem flatten_range_chunks (s : Nat) (_hs : 1 ≤ s) :
    ∀ (k : Nat) (xs : List Value), xs.length ≤ k * s →
      ((List.range k).map (chunkAt s xs)).flatten = xs := by
  intro k
  induction k with
  | zero =>
    intro xs h
    have h0 : xs = [] := List.length_eq_zero.mp (by simpa using h)
    subst h0
    rfl
  | succ k ih =>
    intro xs h
    rw [List.range_succ_eq_map]
    simp only [List.map_cons, List.flatten_cons, List.map_map]
    have h0 : chunkAt s xs 0 = xs.take s := by simp [chunkAt]
    have hcomp : ∀ i ∈ List.range k,
        (chunkAt s xs ∘ Nat.succ) i = chunkAt s (xs.drop s) i := by
      intro i _
      simp only [Function.comp, chunkAt, List.drop_drop]
      have harith : i.succ * s = s + i * s := by rw [Nat.succ_mul]; omega
      rw [harith]
    rw [h0, List.map_congr_left hcomp]
    have hlen : (xs.drop s).length ≤ k * s := by
      have hm : (k + 1) * s = k * s + s := Nat.succ_mul k s
      simp only [List.length_drop]
      omega
    rw [ih (xs.drop s) hlen]
    exact List.take_append_drop s xs

theorem flatten_chunkColumn (s : Nat) (hs : 1 ≤ s) (xs : List Value) :
    (chunkColumn s xs).flatten = xs := by
  rw [chunkColumn]
  exact flatten_range_chunks s hs (ceilDiv xs.length s) xs
    (le_ceilDiv_mul xs.length s hs)

/-- C5: the one-shot convert produces the same array-store writes as
the two-step pipeline of explode into an ICF store (under any valid
column chunk size) followed by encode with identical chunk-size
parameters (under any memory budget). -/
theorem claim_C5_convert_equals_explode_encode (sources : List SourceData)
    (vcs ccs : Nat) (mm : Option Nat) (hccs : 1 ≤ ccs) :
    convert sources vcs = encode (explode sources ccs) vcs none mm := by
  rw [convert, encode_eq_tasks, encode_eq_tasks, encodeTasks, encodeTasks,
      explode, explode]
  dsimp only
  rw [List.map_map, List.map_map]
  congr 1
  apply List.map_congr_left
  intro i _
  simp only [Function.comp]
  rw [fieldWrites, fieldWrites]
  simp only [IcfField.column]
  rw [flatten_chunkColumn 64 (by decide), flatten_chunkColumn ccs hccs]

/-- Witness for C5 on a three-record single-field input. -/
theorem claim_C5_convert_equals_explode_encode_witness :
    1 ≤ (2 : Nat)
    ∧ convert [⟨["pos"], [[11], [12], [13]]⟩] 2
      = encode (explode [⟨["pos"], [[11], [12], [13]]⟩] 2) 2 none (some 1) :=
  ⟨by decide,
   claim_C5_convert_equals_explode_encode [⟨["pos"], [[11], [12], [13]]⟩] 2 2
     (some 1) (by decide)⟩

/-! Distributed explode, modelled from the specification (section 4.3):
the persisted partition plan, the per-partition outputs, and the
explode_partition step that fills in one slot. -/

/-- The persisted partition plan written by explode_init: the input
files, the partition regions, and the column chunk size. -/
structure IcfInit where
  sources : List SourceData
  regions : List Region
  columnChunkSize : Nat
  deriving DecidableEq

/-- The records of partition i of the plan. -/
def partRecords (plan : IcfInit) (i : Nat) : List (List Value) :=
  (((sourceRecords plan.sources).drop ((plan.regions.getD i ⟨0, 0⟩).start)).take
    ((plan.regions.getD i ⟨0, 0⟩).stop - (plan.regions.getD i ⟨0, 0⟩).start))

/-- The column chunks one partition contributes, a deterministic
function of the persisted plan and the partition index alone. -/
def computePartition (plan : IcfInit) (i : Nat) : List IcfField :=
  (List.range (sourceNames plan.sources).length).map fun j =>
    ⟨(sourceNames plan.sources).getD j "",
     chunkColumn plan.columnChunkSize (columnOf (partRecords plan i) j)⟩

/-- The filesystem state of a distributed explode in progress: the
immutable plan plus one output slot per partition. -/
structure DistState where
  plan : IcfInit
  partitionOutputs : List (Option (List IcfField))
  deriving DecidableEq

/-- Modelled from the spec: vcf.explode_partition is missing from the
source tree; section 4.3 describes it as writing that single partition
output, overwriting only that partition, from the persisted plan. -/
def explode_partition (st : DistState) (i : Nat) : DistState :=
  ⟨st.plan, st.partitionOutputs.set i (some (computePartition st.plan i))⟩

/-- C8: explode_partition is idempotent and touches no other partition:
rerunning it for the same in-range index leaves the state exactly as
after the first run, the slot holds the deterministic partition output,
and every other slot (and the plan) is unchanged. -/
theorem claim_C8_explode_partition_idempotent (st : DistState) (i : Nat)
    (h : i < st.partitionOutputs.length) :
    explode_partition (explode_partition st i) i = explode_partition st i
    ∧ (explode_partition st i).plan = st.plan
    ∧ (explode_partition st i).partitionOutputs.getD i none
        = some (computePartition st.plan i)
    ∧ ∀ j, j ≠ i →
        (explode_partition st i).partitionOutputs.getD j none
          = st.partitionOutputs.getD j none := by
  refine ⟨?_, rfl, ?_, ?_⟩
  · rw [explode_partition, explode_partition]
    simp [List.set_set]
  · rw [explode_partition]
    simp only [List.getD_eq_getElem?_getD]
    rw [List.getElem?_set_self (by simpa using h)]
    rfl
  · intro j hj
    rw [explode_partition]
    simp only [List.getD_eq_getElem?_getD]
    rw [List.getElem?_set_ne (Ne.symm hj)]

/-- Witness for C8 on a two-partition plan with three records. -/
theorem claim_C8_explode_partition_idempotent_witness :
    (0 : Nat) <
      (⟨⟨[⟨["pos"], [[1], [2], [3]]⟩], [⟨0, 2⟩, ⟨2, 3⟩], 2⟩, [none, none]⟩ :
        DistState).partitionOutputs.length
    ∧ (explode_partition
        (explode_partition
          ⟨⟨[⟨["pos"], [[1], [2], [3]]⟩], [⟨0, 2⟩, ⟨2, 3⟩], 2⟩, [none, none]⟩ 0) 0
      = explode_partition
          ⟨⟨[⟨["pos"], [[1], [2], [3]]⟩], [⟨0, 2⟩, ⟨2, 3⟩], 2⟩, [none, none]⟩ 0
    ∧ (explode_partition
        ⟨⟨[⟨["pos"], [[1], [2], [3]]⟩], [⟨0, 2⟩, ⟨2, 3⟩], 2⟩, [none, none]⟩ 0).plan
      = (⟨⟨[⟨["pos"], [[1], [2], [3]]⟩], [⟨0, 2⟩, ⟨2, 3⟩], 2⟩, [none, none]⟩ :
          DistState).plan
    ∧ (explode_partition
        ⟨⟨[⟨["pos"], [[1], [2], [3]]⟩], [⟨0, 2⟩, ⟨2, 3⟩], 2⟩,
          [none, none]⟩ 0).partitionOutputs.getD 0 none
      = some (computePartition ⟨[⟨["pos"], [[1], [2], [3]]⟩], [⟨0, 2⟩, ⟨2, 3⟩], 2⟩ 0)
    ∧ ∀ j, j ≠ 0 →
        (explode_partition
          ⟨⟨[⟨["pos"], [[1], [2], [3]]⟩], [⟨0, 2⟩, ⟨2, 3⟩], 2⟩,
            [none, none]⟩ 0).partitionOutputs.getD j none
          = (⟨⟨[⟨["pos"], [[1], [2], [3]]⟩], [⟨0, 2⟩, ⟨2, 3⟩], 2⟩, [none, none]⟩ :
              DistState).partitionOutputs.getD j none) :=
  ⟨by decide,
   claim_C8_explode_partition_idempotent
     ⟨⟨[⟨["pos"], [[1], [2], [3]]⟩], [⟨0, 2⟩, ⟨2, 3⟩], 2⟩, [none, none]⟩ 0
     (by decide)⟩

/-- Witness for C3: two different memory budgets on a concrete store. -/
theorem claim_C3_encode_independent_of_max_memory_witness :
    encode ⟨4, [⟨"pos", [[1, 2], [3, 4]]⟩]⟩ 2 none (some 1)
      = encode ⟨4, [⟨"pos", [[1, 2], [3, 4]]⟩]⟩ 2 none none :=
  claim_C3_encode_independent_of_max_memory ⟨4, [⟨"pos", [[1, 2], [3, 4]]⟩]⟩ 2
    none (some 1) none

/-- Witness for C9 at a concrete missing destination. -/
theorem claim_C9_check_is_noop_when_dest_missing_witness :
    check_overwrite_dir ["out.icf"] false ⟨false, false, 7⟩ = ⟨[], false⟩
    ∧ explodeCmd [["a.vcf"]] ["out.icf"] false 1 none ⟨false, false, 7⟩
        = ⟨[Effect.invoke (OpCall.explodeOp [["a.vcf"]] ["out.icf"] 1 64)],
           false⟩
    ∧ encodeCmd ["src.icf"] ["out.icf"] false none none none none none 1
        ⟨false, false, 7⟩
        = ⟨[Effect.invoke
              (OpCall.encodeOp ["src.icf"] ["out.icf"] none none none none
                none 1)],
           false⟩ :=
  claim_C9_check_is_noop_when_dest_missing ["out.icf"] false false 7
    [["a.vcf"]] 1 none ["src.icf"] none none none none none

/-- Witness for C10 at concrete arguments with the option not given. -/
theorem claim_C10_default_column_chunk_size_witness :
    explodeCmd [["a.vcf"]] ["out.icf"] false 1 none ⟨false, false, 7⟩
      = ⟨[Effect.invoke (OpCall.explodeOp [["a.vcf"]] ["out.icf"] 1 64)],
         false⟩
    ∧ dexplodeInitCmd [["a.vcf"]] ["out.icf"] ((3 : Int) + 1) false none 1
        ⟨false, false, 7⟩
      = ⟨[Effect.invoke
            (OpCall.explodeInitOp ["out.icf"] [["a.vcf"]] ((3 : Int) + 1) 64 1)],
         false⟩ :=
  claim_C10_default_column_chunk_size [["a.vcf"]] ["out.icf"] false false 1 7 3

end Bio2zarr
